import Mathlib

/-!
Shallow embedding of the multi-source price reconciliation engine of
`enhanced_multi_source_scraper.py` (class `EnhancedMultiSourceScraper`):
the data model (`PricePoint`, `PriceComparison`, `market_info`), the
price validator (`validate_price`) and the reconciliation engine
(`compare_prices`), together with proofs about them.

Modelling conventions:
* Python floats are modelled as exact rationals (`ℚ`); float literals such
  as `0.8` become the corresponding rationals (`8/10`).
* `datetime` timestamps are modelled as integers (`ℤ`).
* Python dicts keyed by strings are modelled as association lists in
  insertion-key order; lookup returns an `Option`.
* `list.sort(key=lambda p: p.confidence, reverse=True)` is a stable sort
  placing higher confidence first; it is modelled by
  `List.insertionSort confGE`, which is stable for ties in exactly the
  same way (earlier input elements come first among equals).
-/

/-- Python dataclass `PricePoint`: a single price point from a source. -/
structure PricePoint where
  source : String
  price : ℚ
  unit : String
  timestamp : ℤ
  confidence : ℚ
  market_type : String
  raw_data : String
  location : Option String := none
deriving DecidableEq

/-- Python dataclass `PriceComparison`: comparison result for a market. -/
structure PriceComparison where
  market_type : String
  primary_price : PricePoint
  all_prices : List PricePoint
  price_range : ℚ × ℚ
  average_price : ℚ
  median_price : ℚ
  price_variance : ℚ
  reliability_score : ℚ
  recommendation : String
deriving DecidableEq

/-- Static per-market configuration entry (`self.market_info` values). -/
structure MarketInfo where
  name : String
  name_vi : String
  unit : String
  symbol : String
  valid_range : ℚ × ℚ
  currency_factor : ℚ
deriving DecidableEq

/-- The dict `self.market_info`: the static market configuration. -/
def market_info : List (String × MarketInfo) :=
  [("robusta_london",
    ⟨"Robusta Coffee (London)", "Cà phê Robusta London", "USD/tonne", "LCF",
     (2000, 8000), 1⟩),
   ("arabica_newyork",
    ⟨"Arabica Coffee (NYC)", "Cà phê Arabica New York", "cents/lb", "KC",
     (100, 400), 1⟩),
   ("robusta_vietnam",
    ⟨"Robusta Vietnam National", "Cà phê Robusta Việt Nam", "VND/kg", "VN-ROB",
     (45000, 120000), 1⟩),
   ("robusta_vietnam_south",
    ⟨"Robusta Vietnam South", "Cà phê Robusta miền Nam", "VND/kg", "VN-ROB-S",
     (45000, 120000), 1⟩),
   ("robusta_vietnam_central",
    ⟨"Robusta Vietnam Central", "Cà phê Robusta miền Trung", "VND/kg", "VN-ROB-C",
     (45000, 120000), 1⟩),
   ("robusta_vietnam_local",
    ⟨"Robusta Vietnam Local", "Cà phê Robusta trong nước", "VND/kg", "VN-ROB-L",
     (45000, 120000), 1⟩)]

/-- Association-list lookup, the model of Python dict indexing / `in`. -/
def dictLookup {β : Type} (d : List (String × β)) (k : String) : Option β :=
  match d with
  | [] => none
  | (k₁, v) :: t => if k₁ = k then some v else dictLookup t k

/-- Function `validate_price`: validate price against expected ranges.
Mirrors the tiered plausibility check of the source; the unknown-market
branch returns the neutral score `0.5`. -/
def validate_price (price : ℚ) (market_type : String) : ℚ :=
  match dictLookup market_info market_type with
  | none => 5/10
  | some info =>
    let min_price := info.valid_range.1
    let max_price := info.valid_range.2
    if min_price ≤ price ∧ price ≤ max_price then 1
    else if min_price * (8/10) ≤ price ∧ price ≤ max_price * (12/10) then 7/10
    else if min_price * (5/10) ≤ price ∧ price ≤ max_price * (15/10) then 4/10
    else 1/10

/-! ### The statistics module functions used by `compare_prices` -/

/-- Python `statistics.mean`: arithmetic mean (the Python function raises on an
empty list; here division by zero yields `0`, and every use below is on a
non-empty list). -/
def mean (l : List ℚ) : ℚ := l.sum / l.length

/-- Python `statistics.median`: sort the data; odd count takes the middle
element, even count averages the two middle elements.  Out-of-range
indexing (impossible for the non-empty lists it is applied to) defaults
to `0`. -/
def median (l : List ℚ) : ℚ :=
  let s := l.insertionSort (· ≤ ·)
  let n := l.length
  if n % 2 = 1 then s.getD (n / 2) 0
  else (s.getD (n / 2 - 1) 0 + s.getD (n / 2) 0) / 2

/-- Python `statistics.pvariance`: population variance, sum of squared
deviations from the mean divided by `N` (not `N - 1`). -/
def pvariance (l : List ℚ) : ℚ :=
  (l.map (fun x => (x - mean l) ^ 2)).sum / l.length

/-- Python `min(prices)` on a non-empty list (`0` on the empty list, on which
Python would raise; never applied to it below). -/
def listMin : List ℚ → ℚ
  | [] => 0
  | x :: xs => xs.foldl min x

/-- Python `max(prices)` on a non-empty list (`0` on the empty list). -/
def listMax : List ℚ → ℚ
  | [] => 0
  | x :: xs => xs.foldl max x

/-! ### The reconciliation engine `compare_prices` -/

/-- The comparison `points.sort(key=lambda p: p.confidence, reverse=True)`
sorts by: `p` comes before `q` when `q.confidence ≤ p.confidence`
(descending confidence).  The Python sort is stable, as is the
insertion sort below. -/
def confGE (p q : PricePoint) : Prop := q.confidence ≤ p.confidence

instance : DecidableRel confGE := fun p q =>
  inferInstanceAs (Decidable (q.confidence ≤ p.confidence))

instance : IsTotal PricePoint confGE :=
  ⟨fun p q => le_total q.confidence p.confidence⟩

instance : IsTrans PricePoint confGE :=
  ⟨fun _ _ _ h₁ h₂ => le_trans h₂ h₁⟩

/-- Grouping loop of `compare_prices`: the dict entry for a market key
collects, in input order, exactly the input points with that
`market_type`. -/
def groupOf (price_points : List PricePoint) (k : String) : List PricePoint :=
  price_points.filter (fun p => p.market_type = k)

/-- The keys of the `markets` dict, in insertion order (first appearance
of each `market_type` in the input). -/
def marketKeys (price_points : List PricePoint) : List String :=
  price_points.foldl
    (fun ks p => if p.market_type ∈ ks then ks else ks ++ [p.market_type]) []

/-- Placeholder used as the default of `headD`; every use of `headD`
below is on a non-empty list (Python `points[0]` would raise otherwise,
but the empty group is skipped by `compare_prices`). -/
def dummyPoint : PricePoint := ⟨"", 0, "", 0, 0, "", "", none⟩

/-- Body of the per-market loop of `compare_prices`: sort the group by
descending confidence (stable), then compute statistics, reliability and
the recommendation. -/
def comparisonFor (market_type : String) (group : List PricePoint) :
    PriceComparison :=
  let points := group.insertionSort confGE
  let prices := points.map (·.price)
  if prices.length = 1 then
    { market_type := market_type
      primary_price := points.headD dummyPoint
      all_prices := points
      price_range := (prices.headD 0, prices.headD 0)
      average_price := prices.headD 0
      median_price := prices.headD 0
      price_variance := 0
      reliability_score := (points.headD dummyPoint).confidence
      recommendation := "Single source: " ++ (points.headD dummyPoint).source }
  else
    let primary_price := points.headD dummyPoint
    let price_range := (listMin prices, listMax prices)
    let average := mean prices
    let med := median prices
    let variance := if 1 < prices.length then pvariance prices else 0
    let confidence_scores := points.map (·.confidence)
    let price_consistency :=
      if 0 < average then 1 - variance / average ^ 2 else 0
    let reliability := (mean confidence_scores + price_consistency) / 2
    let price_spread :=
      if 0 < average then (price_range.2 - price_range.1) / average else 0
    let recommendation :=
      if price_spread < 5/100 then
        "Consistent across " ++ toString points.length ++ " sources"
      else if price_spread < 15/100 then
        "Reasonable variance across sources"
      else
        "High variance - verify manually"
    { market_type := market_type
      primary_price := primary_price
      all_prices := points
      price_range := price_range
      average_price := average
      median_price := med
      price_variance := variance
      reliability_score := reliability
      recommendation := recommendation }

/-- Function `compare_prices`: group the input by `market_type`, skip empty
groups (`if not points: continue`), and emit one `PriceComparison` per
market, keyed by market, in first-appearance order. -/
def compare_prices (price_points : List PricePoint) :
    List (String × PriceComparison) :=
  (marketKeys price_points).filterMap (fun k =>
    let points := groupOf price_points k
    if points.isEmpty then none
    else some (k, comparisonFor k points))

/-- The first point of a list achieving the maximal confidence: the
element that the Python stable descending sort brings to the front. -/
def firstMax? : List PricePoint → Option PricePoint
  | [] => none
  | p :: ps =>
    match firstMax? ps with
    | none => some p
    | some m => if p.confidence < m.confidence then some m else some p

/-! ### Helper lemmas about grouping and lookup -/

lemma mem_foldl_marketKeys (pts : List PricePoint) (k : String) :
    ∀ acc : List String,
      (k ∈ pts.foldl
        (fun ks p => if p.market_type ∈ ks then ks else ks ++ [p.market_type]) acc)
      ↔ k ∈ acc ∨ ∃ p ∈ pts, p.market_type = k := by
  induction pts with
  | nil => simp
  | cons q t ih =>
    intro acc
    rw [List.foldl_cons]
    by_cases hq : q.market_type ∈ acc
    · rw [if_pos hq, ih acc]
      constructor
      · rintro (h | ⟨p, hp, hpk⟩)
        · exact Or.inl h
        · exact Or.inr ⟨p, List.mem_cons_of_mem q hp, hpk⟩
      · rintro (h | ⟨p, hp, hpk⟩)
        · exact Or.inl h
        · rcases List.mem_cons.1 hp with rfl | hp₁
          · exact Or.inl (hpk ▸ hq)
          · exact Or.inr ⟨p, hp₁, hpk⟩
    · rw [if_neg hq, ih (acc ++ [q.market_type])]
      constructor
      · rintro (h | ⟨p, hp, hpk⟩)
        · rcases List.mem_append.1 h with h₁ | h₁
          · exact Or.inl h₁
          · exact Or.inr ⟨q, List.mem_cons_self q t, (List.mem_singleton.1 h₁).symm⟩
        · exact Or.inr ⟨p, List.mem_cons_of_mem q hp, hpk⟩
      · rintro (h | ⟨p, hp, hpk⟩)
        · exact Or.inl (List.mem_append.2 (Or.inl h))
        · rcases List.mem_cons.1 hp with rfl | hp₁
          · exact Or.inl (List.mem_append.2 (Or.inr (List.mem_singleton.2 hpk.symm)))
          · exact Or.inr ⟨p, hp₁, hpk⟩

lemma mem_marketKeys (pts : List PricePoint) (k : String) :
    k ∈ marketKeys pts ↔ ∃ p ∈ pts, p.market_type = k := by
  simpa using mem_foldl_marketKeys pts k []

lemma mem_groupOf (pts : List PricePoint) (k : String) (p : PricePoint) :
    p ∈ groupOf pts k ↔ p ∈ pts ∧ p.market_type = k := by
  simp [groupOf]

lemma groupOf_ne_nil (pts : List PricePoint) (k : String)
    (h : k ∈ marketKeys pts) : groupOf pts k ≠ [] := by
  obtain ⟨p, hp, hpk⟩ := (mem_marketKeys pts k).1 h
  intro hnil
  have : p ∈ groupOf pts k := (mem_groupOf pts k p).2 ⟨hp, hpk⟩
  simp [hnil] at this

lemma dictLookup_filterMap (pts : List PricePoint) (k : String) :
    ∀ ks : List String, (∀ k₁ ∈ ks, groupOf pts k₁ ≠ []) →
      dictLookup (ks.filterMap (fun k₁ =>
        let points := groupOf pts k₁
        if points.isEmpty then none
        else some (k₁, comparisonFor k₁ points))) k
      = if k ∈ ks then some (comparisonFor k (groupOf pts k)) else none := by
  intro ks
  induction ks with
  | nil => simp [dictLookup]
  | cons k₁ t ih =>
    intro hne
    have h₁ : (groupOf pts k₁).isEmpty = false := by
      simpa [List.isEmpty_iff] using hne k₁ (List.mem_cons_self k₁ t)
    simp only [List.filterMap_cons, h₁]
    by_cases hk : k₁ = k
    · subst hk
      simp [dictLookup]
    · simp only [dictLookup, if_neg hk,
        ih (fun k₂ hk₂ => hne k₂ (List.mem_cons_of_mem k₁ hk₂)),
        List.mem_cons]
      have : (k = k₁ ∨ k ∈ t) ↔ k ∈ t := by
        constructor
        · rintro (h | h)
          · exact absurd h.symm hk
          · exact h
        · exact Or.inr
      rw [if_congr this rfl rfl]

lemma lookup_compare_of_mem (pts : List PricePoint) (k : String)
    (h : k ∈ marketKeys pts) :
    dictLookup (compare_prices pts) k
      = some (comparisonFor k (groupOf pts k)) := by
  rw [compare_prices,
    dictLookup_filterMap pts k (marketKeys pts) (groupOf_ne_nil pts), if_pos h]

lemma lookup_compare_of_not_mem (pts : List PricePoint) (k : String)
    (h : k ∉ marketKeys pts) :
    dictLookup (compare_prices pts) k = none := by
  rw [compare_prices,
    dictLookup_filterMap pts k (marketKeys pts) (groupOf_ne_nil pts), if_neg h]

lemma lookup_compare_eq_some (pts : List PricePoint) (k : String)
    (c : PriceComparison) :
    dictLookup (compare_prices pts) k = some c ↔
      k ∈ marketKeys pts ∧ c = comparisonFor k (groupOf pts k) := by
  by_cases h : k ∈ marketKeys pts
  · rw [lookup_compare_of_mem pts k h]
    simp [h, eq_comm]
  · rw [lookup_compare_of_not_mem pts k h]
    simp [h]

/-! ### The head of the stable descending-confidence sort -/

lemma firstMax?_eq_none (l : List PricePoint) :
    firstMax? l = none ↔ l = [] := by
  cases l with
  | nil => simp [firstMax?]
  | cons p ps =>
    simp only [firstMax?]
    cases firstMax? ps with
    | none => simp
    | some m =>
      by_cases h : p.confidence < m.confidence <;> simp [h]

lemma head?_insertionSort_confGE (l : List PricePoint) :
    (l.insertionSort confGE).head? = firstMax? l := by
  induction l with
  | nil => simp [firstMax?]
  | cons a t ih =>
    rw [List.insertionSort]
    cases hs : t.insertionSort confGE with
    | nil =>
      have ht : t = [] := by
        have := congrArg List.length hs
        rw [List.length_insertionSort] at this
        exact List.length_eq_zero.1 this
      subst ht
      simp [List.orderedInsert, firstMax?]
    | cons b s =>
      rw [hs] at ih
      rw [List.orderedInsert]
      simp only [firstMax?]
      cases hf : firstMax? t with
      | none =>
        exact absurd ((firstMax?_eq_none t).1 hf ▸ hs) (by simp)
      | some m =>
        rw [hf] at ih
        have hbm : b = m := by simpa using ih
        subst hbm
        by_cases hab : confGE a b
        · have : ¬ a.confidence < b.confidence := not_lt.2 hab
          simp [hab, this]
        · have : a.confidence < b.confidence := lt_of_not_le hab
          simp [hab, this]

lemma firstMax?_spec (l : List PricePoint) (m : PricePoint)
    (h : firstMax? l = some m) :
    (∀ q ∈ l, q.confidence ≤ m.confidence) ∧
      ∃ l₁ l₂, l = l₁ ++ m :: l₂ ∧
        ∀ q ∈ l₁, q.confidence < m.confidence := by
  induction l generalizing m with
  | nil => simp [firstMax?] at h
  | cons a t ih =>
    simp only [firstMax?] at h
    cases hf : firstMax? t with
    | none =>
      rw [hf] at h
      have ht : t = [] := (firstMax?_eq_none t).1 hf
      subst ht
      simp only [Option.some.injEq] at h
      subst h
      exact ⟨by simp, [], [], by simp⟩
    | some m₁ =>
      rw [hf] at h
      obtain ⟨hall, l₁, l₂, hsplit, hlt⟩ := ih m₁ hf
      by_cases hc : a.confidence < m₁.confidence
      · simp only [if_pos hc, Option.some.injEq] at h
        subst h
        refine ⟨?_, a :: l₁, l₂, by simp [hsplit], ?_⟩
        · intro q hq
          rcases List.mem_cons.1 hq with rfl | hq₁
          · exact le_of_lt hc
          · exact hall q hq₁
        · intro q hq
          rcases List.mem_cons.1 hq with rfl | hq₁
          · exact hc
          · exact hlt q hq₁
      · simp only [if_neg hc, Option.some.injEq] at h
        subst h
        refine ⟨?_, [], t, by simp, by simp⟩
        intro q hq
        rcases List.mem_cons.1 hq with rfl | hq₁
        · exact le_refl _
        · exact le_trans (hall q hq₁) (not_lt.1 hc)

/-! ### Projections of `comparisonFor` -/

lemma comparisonFor_all_prices (k : String) (g : List PricePoint) :
    (comparisonFor k g).all_prices = g.insertionSort confGE := by
  unfold comparisonFor
  dsimp only
  split <;> rfl

lemma comparisonFor_primary (k : String) (g : List PricePoint) :
    (comparisonFor k g).primary_price
      = (g.insertionSort confGE).headD dummyPoint := by
  unfold comparisonFor
  dsimp only
  split <;> rfl

lemma comparisonFor_market_type (k : String) (g : List PricePoint) :
    (comparisonFor k g).market_type = k := by
  unfold comparisonFor
  dsimp only
  split <;> rfl

lemma comparisonFor_primary_firstMax (k : String) (g : List PricePoint)
    (m : PricePoint) (h : firstMax? g = some m) :
    (comparisonFor k g).primary_price = m := by
  rw [comparisonFor_primary, List.headD_eq_head?_getD,
    head?_insertionSort_confGE, h, Option.getD_some]

/-! ### Facts about `listMin`, `listMax`, `mean`, `median`, `pvariance` -/

lemma foldl_min_spec (xs : List ℚ) (a : ℚ) :
    (xs.foldl min a = a ∨ xs.foldl min a ∈ xs) ∧
      xs.foldl min a ≤ a ∧ ∀ x ∈ xs, xs.foldl min a ≤ x := by
  induction xs generalizing a with
  | nil => simp
  | cons b t ih =>
    rw [List.foldl_cons]
    obtain ⟨hmem, hle, hall⟩ := ih (min a b)
    refine ⟨?_, le_trans hle (min_le_left a b), ?_⟩
    · rcases hmem with h | h
      · rcases min_choice a b with h₁ | h₁
        · exact Or.inl (h.trans h₁)
        · exact Or.inr (by rw [h, h₁]; exact List.mem_cons_self b t)
      · exact Or.inr (List.mem_cons_of_mem b h)
    · intro x hx
      rcases List.mem_cons.1 hx with rfl | hx₁
      · exact le_trans hle (min_le_right a x)
      · exact hall x hx₁

lemma foldl_max_spec (xs : List ℚ) (a : ℚ) :
    (xs.foldl max a = a ∨ xs.foldl max a ∈ xs) ∧
      a ≤ xs.foldl max a ∧ ∀ x ∈ xs, x ≤ xs.foldl max a := by
  induction xs generalizing a with
  | nil => simp
  | cons b t ih =>
    rw [List.foldl_cons]
    obtain ⟨hmem, hle, hall⟩ := ih (max a b)
    refine ⟨?_, le_trans (le_max_left a b) hle, ?_⟩
    · rcases hmem with h | h
      · rcases max_choice a b with h₁ | h₁
        · exact Or.inl (h.trans h₁)
        · exact Or.inr (by rw [h, h₁]; exact List.mem_cons_self b t)
      · exact Or.inr (List.mem_cons_of_mem b h)
    · intro x hx
      rcases List.mem_cons.1 hx with rfl | hx₁
      · exact le_trans (le_max_right a x) hle
      · exact hall x hx₁

lemma listMin_mem (l : List ℚ) (h : l ≠ []) : listMin l ∈ l := by
  cases l with
  | nil => exact absurd rfl h
  | cons x xs =>
    rw [listMin]
    rcases (foldl_min_spec xs x).1 with h₁ | h₁
    · rw [h₁]; exact List.mem_cons_self x xs
    · exact List.mem_cons_of_mem x h₁

lemma listMin_le (l : List ℚ) (h : l ≠ []) : ∀ x ∈ l, listMin l ≤ x := by
  cases l with
  | nil => exact absurd rfl h
  | cons y xs =>
    intro x hx
    rw [listMin]
    rcases List.mem_cons.1 hx with rfl | hx₁
    · exact (foldl_min_spec xs x).2.1
    · exact (foldl_min_spec xs y).2.2 x hx₁

lemma listMax_mem (l : List ℚ) (h : l ≠ []) : listMax l ∈ l := by
  cases l with
  | nil => exact absurd rfl h
  | cons x xs =>
    rw [listMax]
    rcases (foldl_max_spec xs x).1 with h₁ | h₁
    · rw [h₁]; exact List.mem_cons_self x xs
    · exact List.mem_cons_of_mem x h₁

lemma le_listMax (l : List ℚ) (h : l ≠ []) : ∀ x ∈ l, x ≤ listMax l := by
  cases l with
  | nil => exact absurd rfl h
  | cons y xs =>
    intro x hx
    rw [listMax]
    rcases List.mem_cons.1 hx with rfl | hx₁
    · exact (foldl_max_spec xs x).2.1
    · exact (foldl_max_spec xs y).2.2 x hx₁

lemma listMin_perm (l₁ l₂ : List ℚ) (p : List.Perm l₁ l₂) (h : l₁ ≠ []) :
    listMin l₁ = listMin l₂ := by
  have h₂ : l₂ ≠ [] := by
    intro hnil
    exact h (List.Perm.eq_nil (hnil ▸ p))
  exact le_antisymm
    (listMin_le l₁ h (listMin l₂) (p.mem_iff.2 (listMin_mem l₂ h₂)))
    (listMin_le l₂ h₂ (listMin l₁) (p.mem_iff.1 (listMin_mem l₁ h)))

lemma listMax_perm (l₁ l₂ : List ℚ) (p : List.Perm l₁ l₂) (h : l₁ ≠ []) :
    listMax l₁ = listMax l₂ := by
  have h₂ : l₂ ≠ [] := by
    intro hnil
    exact h (List.Perm.eq_nil (hnil ▸ p))
  exact le_antisymm
    (le_listMax l₂ h₂ (listMax l₁) (p.mem_iff.1 (listMax_mem l₁ h)))
    (le_listMax l₁ h (listMax l₂) (p.mem_iff.2 (listMax_mem l₂ h₂)))

lemma mean_perm (l₁ l₂ : List ℚ) (p : List.Perm l₁ l₂) : mean l₁ = mean l₂ := by
  rw [mean, mean, p.sum_eq, p.length_eq]

lemma insertionSort_eq_of_perm (l₁ l₂ : List ℚ) (p : List.Perm l₁ l₂) :
    l₁.insertionSort (· ≤ ·) = l₂.insertionSort (· ≤ ·) :=
  List.eq_of_perm_of_sorted
    ((List.perm_insertionSort _ l₁).trans (p.trans (List.perm_insertionSort _ l₂).symm))
    (List.sorted_insertionSort _ l₁) (List.sorted_insertionSort _ l₂)

lemma median_perm (l₁ l₂ : List ℚ) (p : List.Perm l₁ l₂) :
    median l₁ = median l₂ := by
  rw [median, median, insertionSort_eq_of_perm l₁ l₂ p, p.length_eq]

lemma pvariance_perm (l₁ l₂ : List ℚ) (p : List.Perm l₁ l₂) :
    pvariance l₁ = pvariance l₂ := by
  rw [pvariance, pvariance, mean_perm l₁ l₂ p,
    (p.map (fun x => (x - mean l₂) ^ 2)).sum_eq, p.length_eq]

lemma pvariance_nonneg (l : List ℚ) : 0 ≤ pvariance l := by
  rw [pvariance]
  refine div_nonneg (List.sum_nonneg ?_) (Nat.cast_nonneg _)
  intro x hx
  obtain ⟨y, _, rfl⟩ := List.mem_map.1 hx
  exact sq_nonneg _

lemma listMin_le_mean (l : List ℚ) (h : l ≠ []) : listMin l ≤ mean l := by
  have hlen : 0 < (l.length : ℚ) := by
    have : l.length ≠ 0 := fun h₀ => h (List.length_eq_zero.1 h₀)
    exact_mod_cast Nat.pos_of_ne_zero this
  rw [mean, le_div_iff₀ hlen, mul_comm]
  calc (l.length : ℚ) * listMin l = l.length • listMin l := (nsmul_eq_mul _ _).symm
    _ ≤ l.sum := List.card_nsmul_le_sum l (listMin l) (listMin_le l h)

lemma mean_le_listMax (l : List ℚ) (h : l ≠ []) : mean l ≤ listMax l := by
  have hlen : 0 < (l.length : ℚ) := by
    have : l.length ≠ 0 := fun h₀ => h (List.length_eq_zero.1 h₀)
    exact_mod_cast Nat.pos_of_ne_zero this
  rw [mean, div_le_iff₀ hlen, mul_comm]
  calc l.sum ≤ l.length • listMax l := List.sum_le_card_nsmul l (listMax l) (le_listMax l h)
    _ = (l.length : ℚ) * listMax l := nsmul_eq_mul _ _

lemma median_mem_bounds (l : List ℚ) (h : l ≠ []) :
    listMin l ≤ median l ∧ median l ≤ listMax l := by
  have hn : 0 < l.length := List.length_pos.2 h
  have hslen : (l.insertionSort (· ≤ ·)).length = l.length :=
    List.length_insertionSort _ l
  have hmem : ∀ i (hi : i < l.length),
      listMin l ≤ (l.insertionSort (· ≤ ·)).getD i 0 ∧
        (l.insertionSort (· ≤ ·)).getD i 0 ≤ listMax l := by
    intro i hi
    have hi₁ : i < (l.insertionSort (· ≤ ·)).length := by rw [hslen]; exact hi
    rw [List.getD_eq_getElem _ 0 hi₁]
    have hm : (l.insertionSort (· ≤ ·))[i] ∈ l :=
      (List.perm_insertionSort _ l).mem_iff.1 (List.getElem_mem hi₁)
    exact ⟨listMin_le l h _ hm, le_listMax l h _ hm⟩
  rw [median]
  by_cases hpar : l.length % 2 = 1
  · rw [if_pos hpar]
    exact hmem (l.length / 2) (Nat.div_lt_self hn (by norm_num))
  · rw [if_neg hpar]
    have h₂ : 2 ≤ l.length := by omega
    obtain ⟨hlo₁, hhi₁⟩ := hmem (l.length / 2 - 1) (by omega)
    obtain ⟨hlo₂, hhi₂⟩ := hmem (l.length / 2) (Nat.div_lt_self hn (by norm_num))
    constructor
    · rw [le_div_iff₀ (by norm_num : (0:ℚ) < 2)]
      linarith
    · rw [div_le_iff₀ (by norm_num : (0:ℚ) < 2)]
      linarith

lemma mean_pos (l : List ℚ) (h : l ≠ []) (hp : ∀ x ∈ l, 0 < x) :
    0 < mean l := by
  have hmin : 0 < listMin l := hp _ (listMin_mem l h)
  exact lt_of_lt_of_le hmin (listMin_le_mean l h)

lemma mean_le_one (l : List ℚ) (h : l ≠ []) (hb : ∀ x ∈ l, x ≤ 1) :
    mean l ≤ 1 := by
  have hmax : listMax l ≤ 1 := hb _ (listMax_mem l h)
  exact le_trans (mean_le_listMax l h) hmax

/-! ### `comparisonFor` in the single-point and multi-point branches -/

lemma comparisonFor_singleton (k : String) (P : PricePoint) :
    comparisonFor k [P] =
      ⟨k, P, [P], (P.price, P.price), P.price, P.price, 0, P.confidence,
        "Single source: " ++ P.source⟩ := rfl

lemma length_points_map_price (g : List PricePoint) :
    ((g.insertionSort confGE).map (·.price)).length = g.length := by
  rw [List.length_map, List.length_insertionSort]

lemma prices_perm (g : List PricePoint) :
    List.Perm ((g.insertionSort confGE).map (·.price)) (g.map (·.price)) :=
  (List.perm_insertionSort confGE g).map _

lemma confidences_perm (g : List PricePoint) :
    List.Perm ((g.insertionSort confGE).map (·.confidence))
      (g.map (·.confidence)) :=
  (List.perm_insertionSort confGE g).map _

lemma comparisonFor_average (k : String) (g : List PricePoint)
    (h : g.length ≠ 1) :
    (comparisonFor k g).average_price = mean (g.map (·.price)) := by
  have h₁ : ¬ ((g.insertionSort confGE).map (·.price)).length = 1 := by
    rw [length_points_map_price]; exact h
  unfold comparisonFor
  dsimp only
  rw [if_neg h₁]
  exact mean_perm _ _ (prices_perm g)

lemma comparisonFor_median (k : String) (g : List PricePoint)
    (h : g.length ≠ 1) :
    (comparisonFor k g).median_price = median (g.map (·.price)) := by
  have h₁ : ¬ ((g.insertionSort confGE).map (·.price)).length = 1 := by
    rw [length_points_map_price]; exact h
  unfold comparisonFor
  dsimp only
  rw [if_neg h₁]
  exact median_perm _ _ (prices_perm g)

lemma comparisonFor_variance (k : String) (g : List PricePoint)
    (h : 2 ≤ g.length) :
    (comparisonFor k g).price_variance = pvariance (g.map (·.price)) := by
  have h₁ : ¬ ((g.insertionSort confGE).map (·.price)).length = 1 := by
    rw [length_points_map_price]; omega
  have h₂ : 1 < ((g.insertionSort confGE).map (·.price)).length := by
    rw [length_points_map_price]; omega
  unfold comparisonFor
  dsimp only
  rw [if_neg h₁]
  dsimp only
  rw [if_pos h₂]
  exact pvariance_perm _ _ (prices_perm g)

lemma comparisonFor_range (k : String) (g : List PricePoint)
    (h : g.length ≠ 1) (hne : g ≠ []) :
    (comparisonFor k g).price_range
      = (listMin (g.map (·.price)), listMax (g.map (·.price))) := by
  have h₁ : ¬ ((g.insertionSort confGE).map (·.price)).length = 1 := by
    rw [length_points_map_price]; exact h
  have hne₁ : (g.insertionSort confGE).map (·.price) ≠ [] := by
    intro h₀
    have := congrArg List.length h₀
    rw [length_points_map_price] at this
    exact hne (List.length_eq_zero.1 this)
  unfold comparisonFor
  dsimp only
  rw [if_neg h₁]
  dsimp only
  rw [listMin_perm _ _ (prices_perm g) hne₁, listMax_perm _ _ (prices_perm g) hne₁]

lemma comparisonFor_reliability (k : String) (g : List PricePoint)
    (h : 2 ≤ g.length) :
    (comparisonFor k g).reliability_score
      = (mean (g.map (·.confidence)) +
          (if 0 < mean (g.map (·.price)) then
            1 - pvariance (g.map (·.price)) / mean (g.map (·.price)) ^ 2
           else 0)) / 2 := by
  have h₁ : ¬ ((g.insertionSort confGE).map (·.price)).length = 1 := by
    rw [length_points_map_price]; omega
  have h₂ : 1 < ((g.insertionSort confGE).map (·.price)).length := by
    rw [length_points_map_price]; omega
  unfold comparisonFor
  dsimp only
  rw [if_neg h₁]
  dsimp only
  rw [if_pos h₂, mean_perm _ _ (confidences_perm g), mean_perm _ _ (prices_perm g),
    pvariance_perm _ _ (prices_perm g)]

lemma comparisonFor_recommendation (k : String) (g : List PricePoint)
    (h : 2 ≤ g.length) :
    (comparisonFor k g).recommendation
      = (if (if 0 < mean (g.map (·.price)) then
              (listMax (g.map (·.price)) - listMin (g.map (·.price)))
                / mean (g.map (·.price))
             else 0) < 5/100 then
          "Consistent across " ++ toString g.length ++ " sources"
         else if (if 0 < mean (g.map (·.price)) then
              (listMax (g.map (·.price)) - listMin (g.map (·.price)))
                / mean (g.map (·.price))
             else 0) < 15/100 then
          "Reasonable variance across sources"
         else
          "High variance - verify manually") := by
  have h₁ : ¬ ((g.insertionSort confGE).map (·.price)).length = 1 := by
    rw [length_points_map_price]; omega
  have hne : g ≠ [] := by
    intro h₀
    rw [h₀] at h
    simp at h
  have hne₁ : (g.insertionSort confGE).map (·.price) ≠ [] := by
    intro h₀
    have := congrArg List.length h₀
    rw [length_points_map_price] at this
    exact hne (List.length_eq_zero.1 this)
  unfold comparisonFor
  dsimp only
  rw [if_neg h₁]
  dsimp only
  rw [listMin_perm _ _ (prices_perm g) hne₁, listMax_perm _ _ (prices_perm g) hne₁,
    mean_perm _ _ (prices_perm g), List.length_insertionSort]

/-! ### Claim theorems -/

/-- C2: for every positive price and every marketKey known to the
configuration with plausible range `(min, max)`, `validate_price` scores
`1.0` inside `[min, max]`, else `0.7` inside `[0.8*min, 1.2*max]`, else
`0.4` inside `[0.5*min, 1.5*max]`, else `0.1`; an unknown marketKey
scores the neutral default `0.5` (and the function is total, so it never
raises). -/
theorem validate_price_tiers (price : ℚ) (key : String) (hpos : 0 < price) :
    (dictLookup market_info key = none → validate_price price key = 5/10) ∧
    ∀ info : MarketInfo, dictLookup market_info key = some info →
      (info.valid_range.1 ≤ price ∧ price ≤ info.valid_range.2 →
        validate_price price key = 1) ∧
      (¬ (info.valid_range.1 ≤ price ∧ price ≤ info.valid_range.2) →
        info.valid_range.1 * (8/10) ≤ price ∧
            price ≤ info.valid_range.2 * (12/10) →
        validate_price price key = 7/10) ∧
      (¬ (info.valid_range.1 ≤ price ∧ price ≤ info.valid_range.2) →
        ¬ (info.valid_range.1 * (8/10) ≤ price ∧
            price ≤ info.valid_range.2 * (12/10)) →
        info.valid_range.1 * (5/10) ≤ price ∧
            price ≤ info.valid_range.2 * (15/10) →
        validate_price price key = 4/10) ∧
      (¬ (info.valid_range.1 ≤ price ∧ price ≤ info.valid_range.2) →
        ¬ (info.valid_range.1 * (8/10) ≤ price ∧
            price ≤ info.valid_range.2 * (12/10)) →
        ¬ (info.valid_range.1 * (5/10) ≤ price ∧
            price ≤ info.valid_range.2 * (15/10)) →
        validate_price price key = 1/10) := by
  constructor
  · intro h
    rw [validate_price, h]
  · intro info h
    rw [validate_price, h]
    dsimp only
    refine ⟨fun h₁ => by rw [if_pos h₁],
      fun h₁ h₂ => by rw [if_neg h₁, if_pos h₂],
      fun h₁ h₂ h₃ => by rw [if_neg h₁, if_neg h₂, if_pos h₃],
      fun h₁ h₂ h₃ => by rw [if_neg h₁, if_neg h₂, if_neg h₃]⟩

/-- Witness for C2 at concrete inputs: the in-range tier for
`robusta_london` and the unknown-market default. -/
theorem validate_price_tiers_witness :
    validate_price 4000 "robusta_london" = 1 ∧
    validate_price 5000 "nonexistent_market" = 5/10 :=
  ⟨((validate_price_tiers 4000 "robusta_london" (by norm_num)).2
      ⟨"Robusta Coffee (London)", "Cà phê Robusta London", "USD/tonne", "LCF",
        (2000, 8000), 1⟩ rfl).1 (by norm_num),
   (validate_price_tiers 5000 "nonexistent_market" (by norm_num)).1 rfl⟩

/-- C9: `compare_prices []` is the empty mapping (no error), and any
marketKey with zero points in the input is absent from the output. -/
theorem compare_prices_empty_and_absent :
    compare_prices [] = [] ∧
    ∀ (pts : List PricePoint) (k : String),
      (∀ p ∈ pts, p.market_type ≠ k) →
      dictLookup (compare_prices pts) k = none := by
  refine ⟨rfl, ?_⟩
  intro pts k hk
  apply lookup_compare_of_not_mem
  rw [mem_marketKeys]
  rintro ⟨p, hp, hpk⟩
  exact hk p hp hpk

/-- Witness for C9: the empty input, and a key observed by no point. -/
theorem compare_prices_empty_and_absent_witness :
    compare_prices [] = [] ∧
    dictLookup
      (compare_prices [⟨"a", 5, "u", 0, 1, "m", "", none⟩]) "other" = none :=
  ⟨compare_prices_empty_and_absent.1,
   compare_prices_empty_and_absent.2 [⟨"a", 5, "u", 0, 1, "m", "", none⟩]
     "other" (by intro p hp; fin_cases hp; simp)⟩

/-- C1 (amended): within a market group `compare_prices` orders points
by confidence descending; exact-confidence ties are broken by the
original input order of the points (the sort is stable), not by `observedAt`.
The primary is the first point after this ordering: the
earliest-appearing point of maximal confidence. -/
theorem compare_prices_primary_selection (pts : List PricePoint) (k : String)
    (c : PriceComparison)
    (h : dictLookup (compare_prices pts) k = some c) :
    List.Sorted confGE c.all_prices ∧
    List.Perm c.all_prices (groupOf pts k) ∧
    (∀ q ∈ groupOf pts k, q.confidence ≤ c.primary_price.confidence) ∧
    ∃ l₁ l₂, groupOf pts k = l₁ ++ c.primary_price :: l₂ ∧
      ∀ q ∈ l₁, q.confidence < c.primary_price.confidence := by
  obtain ⟨hk, hc⟩ := (lookup_compare_eq_some pts k c).1 h
  subst hc
  have hg : groupOf pts k ≠ [] := groupOf_ne_nil pts k hk
  obtain ⟨m, hm⟩ : ∃ m, firstMax? (groupOf pts k) = some m := by
    cases hfm : firstMax? (groupOf pts k) with
    | none => exact absurd ((firstMax?_eq_none _).1 hfm) hg
    | some m => exact ⟨m, rfl⟩
  rw [comparisonFor_all_prices, comparisonFor_primary_firstMax k _ m hm]
  obtain ⟨hall, l₁, l₂, hsplit, hlt⟩ := firstMax?_spec _ m hm
  exact ⟨List.sorted_insertionSort confGE _, List.perm_insertionSort confGE _,
    hall, l₁, l₂, hsplit, hlt⟩

/-- Witness for C1 at a concrete two-point input with distinct
confidences. -/
theorem compare_prices_primary_selection_witness :
    List.Perm
      (comparisonFor "m" (groupOf [⟨"a", 5, "u", 0, 9/10, "m", "", none⟩,
        ⟨"b", 6, "u", 0, 5/10, "m", "", none⟩] "m")).all_prices
      (groupOf [⟨"a", 5, "u", 0, 9/10, "m", "", none⟩,
        ⟨"b", 6, "u", 0, 5/10, "m", "", none⟩] "m") :=
  (compare_prices_primary_selection
    [⟨"a", 5, "u", 0, 9/10, "m", "", none⟩,
     ⟨"b", 6, "u", 0, 5/10, "m", "", none⟩] "m" _ rfl).2.1

/-- Counterexample to C1 as stated: two points with equal confidence
where the later-observed point (timestamp 200 > 100) comes first in the
input; the primary is that first-in-input point, not the
earliest-observed one, so ties are not broken by earliest `observedAt`. -/
theorem compare_prices_tiebreak_not_observedAt :
    ((dictLookup (compare_prices
        [⟨"srcA", 100, "u", 200, 7/10, "m", "", none⟩,
         ⟨"srcB", 101, "u", 100, 7/10, "m", "", none⟩]) "m").map
      (fun c => c.primary_price))
      = some ⟨"srcA", 100, "u", 200, 7/10, "m", "", none⟩ ∧
    (⟨"srcA", 100, "u", 200, 7/10, "m", "", none⟩ : PricePoint).confidence
      = (⟨"srcB", 101, "u", 100, 7/10, "m", "", none⟩ : PricePoint).confidence ∧
    (⟨"srcB", 101, "u", 100, 7/10, "m", "", none⟩ : PricePoint).timestamp
      < (⟨"srcA", 100, "u", 200, 7/10, "m", "", none⟩ : PricePoint).timestamp ∧
    (⟨"srcA", 100, "u", 200, 7/10, "m", "", none⟩ : PricePoint)
      ≠ (⟨"srcB", 101, "u", 100, 7/10, "m", "", none⟩ : PricePoint) := by
  refine ⟨?_, rfl, by norm_num, ?_⟩
  · norm_num [compare_prices, marketKeys, groupOf, comparisonFor, dictLookup,
      List.insertionSort, List.orderedInsert, confGE]
  · intro h
    exact absurd (congrArg PricePoint.source h) (by simp)

/-- C7 (amended): a market group with exactly one point `P` yields
`average = median = P.price`, `variance = 0`,
`reliabilityScore = P.confidence`, `range = (P.price, P.price)` and
`recommendation = "Single source: <source name of P>"` (the code
capitalizes "Single", unlike the lowercase "single source: ..." of the
spec). -/
theorem compare_prices_single_point (pts : List PricePoint) (k : String)
    (P : PricePoint) (h : groupOf pts k = [P]) :
    dictLookup (compare_prices pts) k
      = some ⟨k, P, [P], (P.price, P.price), P.price, P.price, 0,
          P.confidence, "Single source: " ++ P.source⟩ := by
  have hP : P ∈ groupOf pts k := by rw [h]; exact List.mem_cons_self P []
  obtain ⟨hp, hpk⟩ := (mem_groupOf pts k P).1 hP
  have hk : k ∈ marketKeys pts := (mem_marketKeys pts k).2 ⟨P, hp, hpk⟩
  rw [lookup_compare_of_mem pts k hk, h, comparisonFor_singleton]

/-- Witness for C7 at a concrete one-point input. -/
theorem compare_prices_single_point_witness :
    dictLookup (compare_prices [⟨"srcA", 5, "u", 0, 8/10, "m", "", none⟩]) "m"
      = some ⟨"m", ⟨"srcA", 5, "u", 0, 8/10, "m", "", none⟩,
          [⟨"srcA", 5, "u", 0, 8/10, "m", "", none⟩], (5, 5), 5, 5, 0, 8/10,
          "Single source: srcA"⟩ :=
  compare_prices_single_point [⟨"srcA", 5, "u", 0, 8/10, "m", "", none⟩] "m"
    ⟨"srcA", 5, "u", 0, 8/10, "m", "", none⟩ rfl

/-- Counterexample to C7 as stated: the single-source recommendation is
capitalized `"Single source: ..."`, not `"single source: ..."`. -/
theorem compare_prices_single_source_text :
    ((dictLookup (compare_prices
        [⟨"srcA", 5, "u", 0, 8/10, "m", "", none⟩]) "m").map
      (fun c => c.recommendation)) = some "Single source: srcA" ∧
    "Single source: srcA" ≠ "single source: srcA" :=
  ⟨rfl, by decide⟩

/-- C8: for every non-empty market group, the produced range is
`(min of prices, max of prices)` and both the average and the median lie
inside it. -/
theorem compare_prices_range_bounds (pts : List PricePoint) (k : String)
    (c : PriceComparison)
    (h : dictLookup (compare_prices pts) k = some c) :
    c.price_range
      = (listMin ((groupOf pts k).map (·.price)),
         listMax ((groupOf pts k).map (·.price))) ∧
    c.price_range.1 ≤ c.average_price ∧ c.average_price ≤ c.price_range.2 ∧
    c.price_range.1 ≤ c.median_price ∧ c.median_price ≤ c.price_range.2 := by
  obtain ⟨hk, hc⟩ := (lookup_compare_eq_some pts k c).1 h
  subst hc
  have hg : groupOf pts k ≠ [] := groupOf_ne_nil pts k hk
  by_cases h1 : (groupOf pts k).length = 1
  · obtain ⟨P, hP⟩ := List.length_eq_one.1 h1
    rw [hP, comparisonFor_singleton]
    simp [listMin, listMax]
  · have hne : (groupOf pts k).map (·.price) ≠ [] := by
      intro h0
      exact hg (List.map_eq_nil_iff.1 h0)
    rw [comparisonFor_range k _ h1 hg, comparisonFor_average k _ h1,
      comparisonFor_median k _ h1]
    exact ⟨rfl, listMin_le_mean _ hne, mean_le_listMax _ hne,
      (median_mem_bounds _ hne).1, (median_mem_bounds _ hne).2⟩

/-- Witness for C8 at a concrete two-point input. -/
theorem compare_prices_range_bounds_witness :
    (comparisonFor "m" (groupOf [⟨"a", 10, "u", 0, 9/10, "m", "", none⟩,
        ⟨"b", 20, "u", 0, 8/10, "m", "", none⟩] "m")).price_range
      = (listMin ((groupOf [⟨"a", 10, "u", 0, 9/10, "m", "", none⟩,
          ⟨"b", 20, "u", 0, 8/10, "m", "", none⟩] "m").map (·.price)),
         listMax ((groupOf [⟨"a", 10, "u", 0, 9/10, "m", "", none⟩,
          ⟨"b", 20, "u", 0, 8/10, "m", "", none⟩] "m").map (·.price))) :=
  (compare_prices_range_bounds [⟨"a", 10, "u", 0, 9/10, "m", "", none⟩,
    ⟨"b", 20, "u", 0, 8/10, "m", "", none⟩] "m" _ rfl).1

/-- C5: for every market group with at least two points,
`compare_prices` computes the average as the arithmetic mean of the
prices of the group, the median as the statistical median (even-sized groups
average the two middle values of the sorted prices), and the variance as
the population variance (sum of squared deviations from the mean divided
by `N`, not `N - 1`). -/
theorem compare_prices_statistics (pts : List PricePoint) (k : String)
    (c : PriceComparison)
    (h : dictLookup (compare_prices pts) k = some c)
    (hlen : 2 ≤ (groupOf pts k).length) :
    c.average_price
      = ((groupOf pts k).map (·.price)).sum
          / ((groupOf pts k).map (·.price)).length ∧
    c.median_price
      = (if ((groupOf pts k).map (·.price)).length % 2 = 1 then
          (((groupOf pts k).map (·.price)).insertionSort (· ≤ ·)).getD
            (((groupOf pts k).map (·.price)).length / 2) 0
         else
          ((((groupOf pts k).map (·.price)).insertionSort (· ≤ ·)).getD
              (((groupOf pts k).map (·.price)).length / 2 - 1) 0 +
            (((groupOf pts k).map (·.price)).insertionSort (· ≤ ·)).getD
              (((groupOf pts k).map (·.price)).length / 2) 0) / 2) ∧
    c.price_variance
      = (((groupOf pts k).map (·.price)).map
          (fun x => (x - ((groupOf pts k).map (·.price)).sum
              / ((groupOf pts k).map (·.price)).length) ^ 2)).sum
          / ((groupOf pts k).map (·.price)).length := by
  obtain ⟨hk, hc⟩ := (lookup_compare_eq_some pts k c).1 h
  subst hc
  have h1 : (groupOf pts k).length ≠ 1 := by omega
  refine ⟨?_, ?_, ?_⟩
  · rw [comparisonFor_average k _ h1, mean]
  · rw [comparisonFor_median k _ h1, median]
  · rw [comparisonFor_variance k _ hlen, pvariance, mean]

/-- Witness for C5 at a concrete two-point input. -/
theorem compare_prices_statistics_witness :
    (comparisonFor "m" (groupOf [⟨"a", 10, "u", 0, 9/10, "m", "", none⟩,
        ⟨"b", 20, "u", 0, 8/10, "m", "", none⟩] "m")).average_price
      = ((groupOf [⟨"a", 10, "u", 0, 9/10, "m", "", none⟩,
          ⟨"b", 20, "u", 0, 8/10, "m", "", none⟩] "m").map (·.price)).sum
        / ((groupOf [⟨"a", 10, "u", 0, 9/10, "m", "", none⟩,
          ⟨"b", 20, "u", 0, 8/10, "m", "", none⟩] "m").map (·.price)).length :=
  (compare_prices_statistics [⟨"a", 10, "u", 0, 9/10, "m", "", none⟩,
    ⟨"b", 20, "u", 0, 8/10, "m", "", none⟩] "m" _ rfl
    (by norm_num [groupOf])).1

/-- C6 (amended): for groups with at least two points the spread is
`(max - min) / average` (`0` unless the average is positive) and the
recommendation tiers are: spread < 0.05 gives
`"Consistent across N sources"`, 0.05 ≤ spread < 0.15 gives
`"Reasonable variance across sources"`, and spread ≥ 0.15 gives
`"High variance - verify manually"` (the code capitalizes the texts and
uses an ASCII hyphen, unlike the lowercase em-dash wording of the spec). -/
theorem compare_prices_recommendation_tiers (pts : List PricePoint)
    (k : String) (c : PriceComparison)
    (h : dictLookup (compare_prices pts) k = some c)
    (hlen : 2 ≤ (groupOf pts k).length) :
    ((if 0 < mean ((groupOf pts k).map (·.price)) then
        (listMax ((groupOf pts k).map (·.price)) -
          listMin ((groupOf pts k).map (·.price)))
            / mean ((groupOf pts k).map (·.price))
       else 0) < 5/100 →
      c.recommendation
        = "Consistent across " ++ toString (groupOf pts k).length
            ++ " sources") ∧
    (5/100 ≤ (if 0 < mean ((groupOf pts k).map (·.price)) then
        (listMax ((groupOf pts k).map (·.price)) -
          listMin ((groupOf pts k).map (·.price)))
            / mean ((groupOf pts k).map (·.price))
       else 0) →
      (if 0 < mean ((groupOf pts k).map (·.price)) then
        (listMax ((groupOf pts k).map (·.price)) -
          listMin ((groupOf pts k).map (·.price)))
            / mean ((groupOf pts k).map (·.price))
       else 0) < 15/100 →
      c.recommendation = "Reasonable variance across sources") ∧
    (15/100 ≤ (if 0 < mean ((groupOf pts k).map (·.price)) then
        (listMax ((groupOf pts k).map (·.price)) -
          listMin ((groupOf pts k).map (·.price)))
            / mean ((groupOf pts k).map (·.price))
       else 0) →
      c.recommendation = "High variance - verify manually") := by
  obtain ⟨hk, hc⟩ := (lookup_compare_eq_some pts k c).1 h
  subst hc
  rw [comparisonFor_recommendation k _ hlen]
  refine ⟨fun h₁ => by rw [if_pos h₁],
    fun h₁ h₂ => by rw [if_neg (not_lt.2 h₁), if_pos h₂],
    fun h₁ => by
      rw [if_neg (not_lt.2 (le_trans (by norm_num) h₁)),
        if_neg (not_lt.2 h₁)]⟩

/-- Witness for C6 at a concrete two-point input in the consistent
tier. -/
theorem compare_prices_recommendation_tiers_witness :
    (comparisonFor "m" (groupOf [⟨"a", 100, "u", 0, 9/10, "m", "", none⟩,
        ⟨"b", 101, "u", 0, 8/10, "m", "", none⟩] "m")).recommendation
      = "Consistent across "
          ++ toString (groupOf [⟨"a", 100, "u", 0, 9/10, "m", "", none⟩,
              ⟨"b", 101, "u", 0, 8/10, "m", "", none⟩] "m").length
          ++ " sources" :=
  (compare_prices_recommendation_tiers
    [⟨"a", 100, "u", 0, 9/10, "m", "", none⟩,
     ⟨"b", 101, "u", 0, 8/10, "m", "", none⟩] "m" _ rfl
    (by norm_num [groupOf])).1
    (by norm_num [groupOf, mean, listMin, listMax])

/-- Counterexample to C6 as stated: a group in the high-spread tier
whose recommendation is `"High variance - verify manually"`, not the
spec text `"high variance — verify manually"`. -/
theorem compare_prices_high_variance_text :
    ((dictLookup (compare_prices
        [⟨"a", 100, "u", 0, 9/10, "m", "", none⟩,
         ⟨"b", 200, "u", 0, 8/10, "m", "", none⟩]) "m").map
      (fun c => c.recommendation)) = some "High variance - verify manually" ∧
    (15/100 : ℚ) ≤ (200 - 100) / ((100 + 200) / 2) ∧
    "High variance - verify manually" ≠ "high variance — verify manually" := by
  refine ⟨?_, by norm_num, by decide⟩
  norm_num [compare_prices, marketKeys, groupOf, comparisonFor, dictLookup,
    List.insertionSort, List.orderedInsert, confGE, mean, listMin, listMax,
    median, pvariance]

/-- C3 (amended): for well-formed inputs (positive prices, confidences
in `[0, 1]`) every reliabilityScore is at most `1.0`, and in the
multi-point case it equals
`(mean of confidences + (1 - variance / average^2)) / 2`; the score is
NOT clamped below, and can be negative when the variance exceeds the
squared average (see the counterexample). -/
theorem compare_prices_reliability (pts : List PricePoint) (k : String)
    (c : PriceComparison)
    (hwf : ∀ p ∈ pts, 0 < p.price ∧ 0 ≤ p.confidence ∧ p.confidence ≤ 1)
    (h : dictLookup (compare_prices pts) k = some c) :
    c.reliability_score ≤ 1 ∧
    (2 ≤ (groupOf pts k).length →
      c.reliability_score
        = (mean ((groupOf pts k).map (·.confidence)) +
            (1 - c.price_variance / c.average_price ^ 2)) / 2) := by
  obtain ⟨hk, hc⟩ := (lookup_compare_eq_some pts k c).1 h
  subst hc
  have hg : groupOf pts k ≠ [] := groupOf_ne_nil pts k hk
  have hwfg : ∀ p ∈ groupOf pts k,
      0 < p.price ∧ 0 ≤ p.confidence ∧ p.confidence ≤ 1 :=
    fun p hp => hwf p ((mem_groupOf pts k p).1 hp).1
  have hpne : (groupOf pts k).map (·.price) ≠ [] := by
    intro h0
    exact hg (List.map_eq_nil_iff.1 h0)
  have hcne : (groupOf pts k).map (·.confidence) ≠ [] := by
    intro h0
    exact hg (List.map_eq_nil_iff.1 h0)
  have hpos : ∀ x ∈ (groupOf pts k).map (·.price), 0 < x := by
    intro x hx
    obtain ⟨p, hp, rfl⟩ := List.mem_map.1 hx
    exact (hwfg p hp).1
  have hconf : ∀ x ∈ (groupOf pts k).map (·.confidence), x ≤ 1 := by
    intro x hx
    obtain ⟨p, hp, rfl⟩ := List.mem_map.1 hx
    exact (hwfg p hp).2.2
  have havg : 0 < mean ((groupOf pts k).map (·.price)) :=
    mean_pos _ hpne hpos
  by_cases h1 : (groupOf pts k).length = 1
  · obtain ⟨P, hP⟩ := List.length_eq_one.1 h1
    constructor
    · rw [hP, comparisonFor_singleton]
      exact (hwfg P (by rw [hP]; exact List.mem_cons_self P [])).2.2
    · intro h2
      rw [hP] at h2
      simp at h2
  · have h2 : 2 ≤ (groupOf pts k).length := by
      have : (groupOf pts k).length ≠ 0 :=
        fun h0 => hg (List.length_eq_zero.1 h0)
      omega
    constructor
    · rw [comparisonFor_reliability k _ h2, if_pos havg]
      have hm1 : mean ((groupOf pts k).map (·.confidence)) ≤ 1 :=
        mean_le_one _ hcne hconf
      have hv : 0 ≤ pvariance ((groupOf pts k).map (·.price))
          / mean ((groupOf pts k).map (·.price)) ^ 2 :=
        div_nonneg (pvariance_nonneg _) (by positivity)
      linarith
    · intro _
      rw [comparisonFor_variance k _ h2, comparisonFor_average k _ h1,
        comparisonFor_reliability k _ h2, if_pos havg]

/-- Witness for C3 at a concrete well-formed two-point input. -/
theorem compare_prices_reliability_witness :
    (comparisonFor "m" (groupOf [⟨"a", 1, "u", 0, 1, "m", "", none⟩,
        ⟨"b", 2, "u", 0, 1/2, "m", "", none⟩] "m")).reliability_score ≤ 1 :=
  (compare_prices_reliability [⟨"a", 1, "u", 0, 1, "m", "", none⟩,
    ⟨"b", 2, "u", 0, 1/2, "m", "", none⟩] "m" _
    (by intro p hp; fin_cases hp <;> norm_num) rfl).1

/-- Counterexample to C3 as stated: four well-formed points (prices
1, 1, 1, 100, confidences all 1) produce a negative reliabilityScore:
the variance exceeds the squared average, so the score is not in
`[0, 1]`. -/
theorem compare_prices_reliability_negative :
    ((dictLookup (compare_prices
        [⟨"a", 1, "u", 0, 1, "m", "", none⟩,
         ⟨"b", 1, "u", 0, 1, "m", "", none⟩,
         ⟨"c", 1, "u", 0, 1, "m", "", none⟩,
         ⟨"d", 100, "u", 0, 1, "m", "", none⟩]) "m").map
      (fun c => c.reliability_score)) = some (-8185/21218) ∧
    (-8185/21218 : ℚ) < 0 := by
  refine ⟨?_, by norm_num⟩
  norm_num [compare_prices, marketKeys, groupOf, comparisonFor, dictLookup,
    List.insertionSort, List.orderedInsert, confGE, mean, listMin, listMax,
    median, pvariance]

/-- C4 (amended): for inputs containing the same multiset of
PricePoints, `compare_prices` yields the same set of market keys and
identical statistics per market (average, median, variance, range,
reliability, recommendation), and the per-market point lists are
permutations of each other; the primary selection, however, may differ
when points of one market tie on confidence (see the counterexample),
because the stable sort breaks ties by input order. -/
theorem compare_prices_perm_invariant (pts₁ pts₂ : List PricePoint)
    (hperm : List.Perm pts₁ pts₂) (k : String) :
    (k ∈ marketKeys pts₁ ↔ k ∈ marketKeys pts₂) ∧
    ∀ c₁, dictLookup (compare_prices pts₁) k = some c₁ →
      ∃ c₂, dictLookup (compare_prices pts₂) k = some c₂ ∧
        c₁.average_price = c₂.average_price ∧
        c₁.median_price = c₂.median_price ∧
        c₁.price_variance = c₂.price_variance ∧
        c₁.price_range = c₂.price_range ∧
        c₁.reliability_score = c₂.reliability_score ∧
        c₁.recommendation = c₂.recommendation ∧
        List.Perm c₁.all_prices c₂.all_prices := by
  have hkeys : ∀ k₀, k₀ ∈ marketKeys pts₁ ↔ k₀ ∈ marketKeys pts₂ := by
    intro k₀
    rw [mem_marketKeys, mem_marketKeys]
    constructor
    · rintro ⟨p, hp₁, hpk⟩
      exact ⟨p, hperm.mem_iff.1 hp₁, hpk⟩
    · rintro ⟨p, hp₂, hpk⟩
      exact ⟨p, hperm.mem_iff.2 hp₂, hpk⟩
  have hg : List.Perm (groupOf pts₁ k) (groupOf pts₂ k) := by
    unfold groupOf
    exact hperm.filter _
  refine ⟨hkeys k, ?_⟩
  intro c₁ h₁
  obtain ⟨hk₁, hc₁⟩ := (lookup_compare_eq_some pts₁ k c₁).1 h₁
  subst hc₁
  have hk₂ : k ∈ marketKeys pts₂ := (hkeys k).1 hk₁
  have hgne : groupOf pts₁ k ≠ [] := groupOf_ne_nil pts₁ k hk₁
  have hgne₂ : groupOf pts₂ k ≠ [] := groupOf_ne_nil pts₂ k hk₂
  refine ⟨comparisonFor k (groupOf pts₂ k),
    lookup_compare_of_mem pts₂ k hk₂, ?_⟩
  by_cases h1 : (groupOf pts₁ k).length = 1
  · obtain ⟨P, hP⟩ := List.length_eq_one.1 h1
    have hP₂ : groupOf pts₂ k = [P] := List.perm_singleton.1 (hP ▸ hg).symm
    rw [hP, hP₂]
    exact ⟨rfl, rfl, rfl, rfl, rfl, rfl, List.Perm.refl _⟩
  · have h1₂ : (groupOf pts₂ k).length ≠ 1 := by
      rw [← hg.length_eq]
      exact h1
    have h2 : 2 ≤ (groupOf pts₁ k).length := by
      have : (groupOf pts₁ k).length ≠ 0 :=
        fun h0 => hgne (List.length_eq_zero.1 h0)
      omega
    have h2₂ : 2 ≤ (groupOf pts₂ k).length := by
      rw [← hg.length_eq]
      exact h2
    have hpne : (groupOf pts₁ k).map (·.price) ≠ [] := by
      intro h0
      exact hgne (List.map_eq_nil_iff.1 h0)
    have hprice : List.Perm ((groupOf pts₁ k).map (·.price))
        ((groupOf pts₂ k).map (·.price)) := hg.map _
    have hconfp : List.Perm ((groupOf pts₁ k).map (·.confidence))
        ((groupOf pts₂ k).map (·.confidence)) := hg.map _
    have hmean := mean_perm _ _ hprice
    have hmedian := median_perm _ _ hprice
    have hvar := pvariance_perm _ _ hprice
    have hmin := listMin_perm _ _ hprice hpne
    have hmax := listMax_perm _ _ hprice hpne
    have hmeanc := mean_perm _ _ hconfp
    refine ⟨?_, ?_, ?_, ?_, ?_, ?_, ?_⟩
    · rw [comparisonFor_average k _ h1, comparisonFor_average k _ h1₂, hmean]
    · rw [comparisonFor_median k _ h1, comparisonFor_median k _ h1₂, hmedian]
    · rw [comparisonFor_variance k _ h2, comparisonFor_variance k _ h2₂, hvar]
    · rw [comparisonFor_range k _ h1 hgne, comparisonFor_range k _ h1₂ hgne₂,
        hmin, hmax]
    · rw [comparisonFor_reliability k _ h2, comparisonFor_reliability k _ h2₂,
        hmeanc, hmean, hvar]
    · rw [comparisonFor_recommendation k _ h2,
        comparisonFor_recommendation k _ h2₂, hmean, hmin, hmax, hg.length_eq]
    · rw [comparisonFor_all_prices, comparisonFor_all_prices]
      exact (List.perm_insertionSort confGE _).trans
        (hg.trans (List.perm_insertionSort confGE _).symm)

/-- Witness for C4 at a concrete transposed two-point input. -/
theorem compare_prices_perm_invariant_witness :
    "m" ∈ marketKeys [⟨"a", 10, "u", 0, 1/2, "m", "", none⟩,
        ⟨"b", 20, "u", 0, 1/2, "m", "", none⟩] ↔
      "m" ∈ marketKeys [⟨"b", 20, "u", 0, 1/2, "m", "", none⟩,
        ⟨"a", 10, "u", 0, 1/2, "m", "", none⟩] :=
  (compare_prices_perm_invariant
    [⟨"a", 10, "u", 0, 1/2, "m", "", none⟩,
     ⟨"b", 20, "u", 0, 1/2, "m", "", none⟩]
    [⟨"b", 20, "u", 0, 1/2, "m", "", none⟩,
     ⟨"a", 10, "u", 0, 1/2, "m", "", none⟩]
    (List.Perm.swap (⟨"b", 20, "u", 0, 1/2, "m", "", none⟩ : PricePoint)
      ⟨"a", 10, "u", 0, 1/2, "m", "", none⟩ []) "m").1

/-- Counterexample to C4 as stated: two inputs with the same multiset of
points (a transposition) whose primary selections differ, because the
two points tie on confidence and the stable sort keeps input order. -/
theorem compare_prices_perm_primary_differs :
    List.Perm [⟨"a", 10, "u", 0, 1/2, "m", "", none⟩,
        ⟨"b", 20, "u", 0, 1/2, "m", "", none⟩]
      [(⟨"b", 20, "u", 0, 1/2, "m", "", none⟩ : PricePoint),
        ⟨"a", 10, "u", 0, 1/2, "m", "", none⟩] ∧
    ((dictLookup (compare_prices [⟨"a", 10, "u", 0, 1/2, "m", "", none⟩,
        ⟨"b", 20, "u", 0, 1/2, "m", "", none⟩]) "m").map
      (fun c => c.primary_price))
      = some ⟨"a", 10, "u", 0, 1/2, "m", "", none⟩ ∧
    ((dictLookup (compare_prices [⟨"b", 20, "u", 0, 1/2, "m", "", none⟩,
        ⟨"a", 10, "u", 0, 1/2, "m", "", none⟩]) "m").map
      (fun c => c.primary_price))
      = some ⟨"b", 20, "u", 0, 1/2, "m", "", none⟩ ∧
    (⟨"a", 10, "u", 0, 1/2, "m", "", none⟩ : PricePoint)
      ≠ ⟨"b", 20, "u", 0, 1/2, "m", "", none⟩ := by
  refine ⟨List.Perm.swap (⟨"b", 20, "u", 0, 1/2, "m", "", none⟩ : PricePoint)
      ⟨"a", 10, "u", 0, 1/2, "m", "", none⟩ [], ?_, ?_, ?_⟩
  · norm_num [compare_prices, marketKeys, groupOf, comparisonFor, dictLookup,
      List.insertionSort, List.orderedInsert, confGE]
  · norm_num [compare_prices, marketKeys, groupOf, comparisonFor, dictLookup,
      List.insertionSort, List.orderedInsert, confGE]
  · intro h
    exact absurd (congrArg PricePoint.source h) (by simp)

/-- C10: `compare_prices` is a pure function of its input (the embedding
is a function, mirroring that the Python code only reads the input
list: the per-market lists are freshly built by the grouping loop and
only those fresh lists are sorted).  Every marketKey present in the
input appears in the output, the output `all_prices` for a key is a
permutation of exactly the input points of that market (in particular the
input points themselves, unchanged), and the primary is an element of
`all_prices`. -/
theorem compare_prices_frame (pts : List PricePoint) (k : String) :
    (k ∈ marketKeys pts ↔ ∃ p ∈ pts, p.market_type = k) ∧
    (k ∈ marketKeys pts →
      dictLookup (compare_prices pts) k
        = some (comparisonFor k (groupOf pts k))) ∧
    ∀ c, dictLookup (compare_prices pts) k = some c →
      List.Perm c.all_prices (groupOf pts k) ∧
      c.primary_price ∈ c.all_prices := by
  refine ⟨mem_marketKeys pts k, lookup_compare_of_mem pts k, ?_⟩
  intro c h
  obtain ⟨hk, hc⟩ := (lookup_compare_eq_some pts k c).1 h
  subst hc
  have hg : groupOf pts k ≠ [] := groupOf_ne_nil pts k hk
  obtain ⟨m, hm⟩ : ∃ m, firstMax? (groupOf pts k) = some m := by
    cases hfm : firstMax? (groupOf pts k) with
    | none => exact absurd ((firstMax?_eq_none _).1 hfm) hg
    | some m => exact ⟨m, rfl⟩
  rw [comparisonFor_all_prices, comparisonFor_primary_firstMax k _ m hm]
  obtain ⟨_, l₁, l₂, hsplit, _⟩ := firstMax?_spec _ m hm
  refine ⟨List.perm_insertionSort confGE _, ?_⟩
  have hmem : m ∈ groupOf pts k := by
    rw [hsplit]
    exact List.mem_append.2 (Or.inr (List.mem_cons_self m l₂))
  exact (List.perm_insertionSort confGE _).mem_iff.2 hmem

/-- Witness for C10 at a concrete one-point input. -/
theorem compare_prices_frame_witness :
    dictLookup (compare_prices [⟨"a", 5, "u", 0, 1, "m", "", none⟩]) "m"
      = some (comparisonFor "m"
          (groupOf [⟨"a", 5, "u", 0, 1, "m", "", none⟩] "m")) :=
  (compare_prices_frame [⟨"a", 5, "u", 0, 1, "m", "", none⟩] "m").2.1
    (by norm_num [marketKeys])
